import Mathlib

set_option linter.unusedVariables false

namespace Zdb

/-! Shallow embedding of the zdb query-preparation engine and
transaction coordinator.

The public API lives in `zdb.go`; the implementation functions
(`prepareImpl`, `beginImpl`, `txImpl`, …) are not part of the given
sources, only their declarations, callers and tests are.  Where a
definition below is marked `Modelled from the spec:` it reconstructs
that missing implementation from the specification (§4.1–§4.3, §8),
with the concrete expectations of the in-repo tests (`TestPrepare`,
`TestPrepareIn`, `TestBegin`, `TestTX`) pinning the behaviour. -/

/-- Runtime values that can be passed as query parameters.  Go's
`interface{}` arguments are modelled by a closed sum: machine integers,
strings, booleans, byte slices (`[]byte`), time values (`time.Time`),
integer slices (`[]int` / `[]int64`, which zdb inlines into the query
text, per `TestPrepareIn`) and generic slices (any other slice, which
is expanded into placeholders). -/
inductive Val where
  | vint (n : Int)
  | vstr (s : String)
  | vbool (b : Bool)
  | vbytes (bs : List Nat)
  | vtime (t : Nat)
  | vsliceInt (ns : List Int)
  | vslice (xs : List Val)

/-- Errors returned by the preparation pipeline.  Go reports these as
`error` values built with `fmt.Errorf`; the constructors model the
distinct conditions and `PrepErr.message` renders the message text the
tests match on with `ErrorContains`. -/
inductive PrepErr where
  | moreThanOnce (key : String)
  | mixNamedPositional
  | couldNotFind (key : String)
  | tooFewArgs
  | tooManyArgs
deriving DecidableEq

/-- Message text of a preparation error, mirroring the strings the
tests search for ("more than once", "mix named and positional",
"could not find"). -/
def PrepErr.message : PrepErr → String
  | .moreThanOnce key => "parameter given more than once: " ++ key
  | .mixNamedPositional => "cannot mix named and positional parameters"
  | .couldNotFind key => "could not find key: " ++ key
  | .tooFewArgs => "number of bindVars exceeds arguments"
  | .tooManyArgs => "number of bindVars less than number arguments"

/-- One element of the variadic `params ...interface{}` list: a map
(`zdb.P`), a struct with introspectable fields, or a bare positional
value.  A record carries its fields under their case-normalized
(lowercased) database names, exactly as sqlx's field mapper produces
them from the Go struct (`struct{ XXX bool }` contributes the key
`xxx`); map keys are used as given. -/
inductive Param where
  | map (kvs : List (String × Val))
  | record (kvs : List (String × Val))
  | pos (v : Val)

/-- A parameter source is named when it is a map or a struct
(`zdb.go`: "Named parameters (:name) are used if params contains a map
or struct"). -/
def isNamedSource : Param → Bool
  | .map _ => true
  | .record _ => true
  | .pos _ => false

/-- The positional value carried by a parameter, if it is one. -/
def getPos : Param → Option Val
  | .pos v => some v
  | _ => none

/-- Key/value pairs contributed by a named source. -/
def namedPairs : Param → List (String × Val)
  | .map kvs => kvs
  | .record kvs => kvs
  | .pos _ => []

/-- Modelled from the spec: the Parameter Extractor's merge step
(§4.1, part of the missing `prepareImpl`).  Adds one source's pairs to
the accumulated mapping, case-normalizing keys and failing when a key
was already supplied by an earlier source ("duplicate identifiers from
different input sources are an error, not a silent overwrite"). -/
def addPairs : List (String × Val) → List (String × Val) → Except PrepErr (List (String × Val))
  | [], acc => .ok acc
  | (k, v) :: rest, acc =>
      if acc.any (fun p => p.1 = k) then .error (.moreThanOnce k)
      else addPairs rest (acc ++ [(k, v)])

/-- Modelled from the spec: union of all named sources' pairs with
conflict detection (§4.1). -/
def mergeNamed : List Param → List (String × Val) → Except PrepErr (List (String × Val))
  | [], acc => .ok acc
  | p :: rest, acc =>
      match addPairs (namedPairs p) acc with
      | .error e => .error e
      | .ok acc2 => mergeNamed rest acc2

/-- Modelled from the spec: the Parameter Extractor (§4.1, part of the
missing `prepareImpl`).  Classifies the call as named or positional
and produces either a merged mapping or the ordered positional list;
supplying a bare scalar together with a named source is the
"cannot mix named and positional parameters" condition. -/
def extractParams (ps : List Param) : Except PrepErr (List (String × Val) ⊕ List Val) :=
  if ps.any isNamedSource then
    if (ps.filterMap getPos).isEmpty then
      match mergeNamed ps [] with
      | .error e => .error e
      | .ok env => .ok (.inl env)
    else .error .mixNamedPositional
  else .ok (.inr (ps.filterMap getPos))

/-- Characters allowed in a `:identifier` placeholder name. -/
def isIdentChar (c : Char) : Bool :=
  c.isAlpha || c.isDigit || c = '_'

/-- Look a name up in the merged named-parameter mapping. -/
def lookupVal (env : List (String × Val)) (name : String) : Option Val :=
  match env.find? (fun p => p.1 = name) with
  | some p => some p.2
  | none => none

/-- Truthiness of a conditional block's controlling value: a boolean
is itself, and any other value is true unless it is the language-level
zero value (spec §3, Conditional Block). -/
def truthy : Val → Bool
  | .vbool b => b
  | .vint n => n != 0
  | .vstr s => s != ""
  | .vbytes bs => !bs.isEmpty
  | .vtime t => t != 0
  | .vsliceInt ns => !ns.isEmpty
  | .vslice xs => !xs.isEmpty

/-- True when the character list contains no adjacent `}}` pair. -/
def noClose : List Char → Bool
  | [] => true
  | c :: rest => if c = '}' ∧ rest.head? = some '}' then false else noClose rest

/-- True when the character list contains no adjacent `{{` pair. -/
def noOpen : List Char → Bool
  | [] => true
  | c :: rest => if c = '{' ∧ rest.head? = some '{' then false else noOpen rest

/-- Split a character list at the first closing `}}` delimiter,
returning the text before it and the text after it. -/
def splitClose : List Char → Option (List Char × List Char)
  | [] => none
  | c :: rest =>
      if c = '}' ∧ rest.head? = some '}' then some ([], rest.tail)
      else
        match splitClose rest with
        | some (frag, after) => some (c :: frag, after)
        | none => none

/-- Drop a single leading space, used to separate a block's identifier
from its fragment. -/
def dropSpace : List Char → List Char
  | ' ' :: t => t
  | l => l

/-- Modelled from the spec: parsing one conditional block after its
opening `{{` (§6: `{{:identifier fragment}}` and
`{{:identifier! fragment}}`).  Returns the identifier, the negate
flag, the fragment and the text following the closing `}}`, or `none`
when the syntax is malformed (no `:identifier`, or no closing
delimiter). -/
def parseBlock (l : List Char) : Option (String × Bool × List Char × List Char) :=
  if l.head? = some ':' then
    let rest := l.tail
    let name := rest.takeWhile isIdentChar
    if name.isEmpty then none
    else
      let r2 := rest.dropWhile isIdentChar
      let neg : Bool := r2.head? = some '!'
      let r3 := if neg then r2.tail else r2
      match splitClose r3 with
      | none => none
      | some (frag, after) => some (String.mk name, neg, dropSpace frag, after)
  else none

/-- Fuelled worker for `replCond`; the fuel only bounds the recursion
depth and one unit per consumed character is always enough, as
`replCondF_congr` shows. -/
def replCondF (env : List (String × Val)) : Nat → List Char → Except PrepErr (List Char)
  | _, [] => .ok []
  | 0, l => .ok l
  | fuel + 1, c :: rest =>
      if c = '{' ∧ rest.head? = some '{' then
        match parseBlock rest.tail with
        | none =>
            match replCondF env fuel rest.tail with
            | .error e => .error e
            | .ok t => .ok ('{' :: '{' :: t)
        | some (name, neg, frag, after) =>
            match lookupVal env name with
            | none => .error (.couldNotFind name)
            | some v =>
                match replCondF env fuel after with
                | .error e => .error e
                | .ok t => .ok ((if truthy v != neg then frag else []) ++ t)
      else
        match replCondF env fuel rest with
        | .error e => .error e
        | .ok t => .ok (c :: t)

/-- Modelled from the spec: conditional-block resolution (§4.2 step 3,
part of the missing `prepareImpl`).  Scans the template once; each
well-formed `{{:identifier[!] fragment}}` block is replaced by its
fragment when the identifier's value is truthy (inverted by `!`) and
by the empty string otherwise; an absent identifier is a hard
"could not find" error; malformed block syntax is left verbatim. -/
def replCond (env : List (String × Val)) (l : List Char) : Except PrepErr (List Char) :=
  replCondF env l.length l

/-- Fuelled worker for `bindNamed`. -/
def bindNamedF (env : List (String × Val)) :
    Nat → List Char → Except PrepErr (List Char × List Val)
  | _, [] => .ok ([], [])
  | 0, l => .ok (l, [])
  | fuel + 1, c :: rest =>
      if c = ':' ∧ (rest.head?.map isIdentChar).getD false then
        match lookupVal env (String.mk (rest.takeWhile isIdentChar)) with
        | none => .error (.couldNotFind (String.mk (rest.takeWhile isIdentChar)))
        | some v =>
            match bindNamedF env fuel (rest.dropWhile isIdentChar) with
            | .error e => .error e
            | .ok (q, args) => .ok ('?' :: q, v :: args)
      else
        match bindNamedF env fuel rest with
        | .error e => .error e
        | .ok (q, args) => .ok (c :: q, args)

/-- Modelled from the spec: named-placeholder substitution (§4.2
step 4, part of the missing `prepareImpl`).  Each `:identifier` is
replaced by a `?` placeholder in left-to-right order with the matched
value appended to the argument list in that same order; an identifier
with no matching key is a hard "could not find" error. -/
def bindNamed (env : List (String × Val)) (l : List Char) :
    Except PrepErr (List Char × List Val) :=
  bindNamedF env l.length l

/-- A value that the IN-expansion step of `sqlx.In` (plus zdb's
integer-slice inlining) treats specially: every slice except byte
slices and time values. -/
def isExpandable : Val → Bool
  | .vslice _ => true
  | .vsliceInt _ => true
  | _ => false

/-- The text of `n` comma-separated `?` placeholders. -/
def placeholders : Nat → List Char
  | 0 => []
  | 1 => ['?']
  | n + 2 => '?' :: ',' :: ' ' :: placeholders (n + 1)

/-- Comma-separated rendering of an integer slice, inlined verbatim
into the query text (`TestPrepareIn`: `c in (?)` with `[]int64{1,2}`
becomes `c in (1, 2)`). -/
def inlineInts : List Int → List Char
  | [] => []
  | [n] => (toString n).data
  | n :: m :: rest => (toString n).data ++ ',' :: ' ' :: inlineInts (m :: rest)

/-- Modelled from the spec: slice expansion over the positional
placeholders (§4.2 step 5, part of the missing `prepareImpl`).  Walks
the query matching each `?` with its argument: a generic slice of
length N becomes N consecutive placeholders with its elements
appended in order, an integer slice is inlined as literal text with
no arguments appended, and every other value (bytes and time values
included) passes through one-to-one. -/
def expandIn : List Char → List Val → Except PrepErr (List Char × List Val)
  | [], vs => if vs.isEmpty then .ok ([], []) else .error .tooManyArgs
  | c :: rest, vs =>
      if c = '?' then
        match vs with
        | [] => .error .tooFewArgs
        | v :: vs2 =>
            match expandIn rest vs2 with
            | .error e => .error e
            | .ok (q, args) =>
                match v with
                | .vsliceInt ns => .ok (inlineInts ns ++ q, args)
                | .vslice xs => .ok (placeholders xs.length ++ q, xs ++ args)
                | w => .ok ('?' :: q, w :: args)
      else
        match expandIn rest vs with
        | .error e => .error e
        | .ok (q, args) => .ok (c :: q, args)

/-- Modelled from the spec: the `sqlx.In` entry step.  When no
argument is an expandable slice the query and arguments pass through
unchanged (so ordinary queries are never re-counted); otherwise the
placeholder walk of `expandIn` runs. -/
def sqlxIn (q : List Char) (args : List Val) : Except PrepErr (List Char × List Val) :=
  if args.any isExpandable then expandIn q args else .ok (q, args)

/-- Modelled from the spec: the missing `prepareImpl`
(`prepare(template, driverCaps, params...)`, §4.2).  Extracts the
parameters; in named mode resolves conditional blocks, substitutes
named placeholders and expands slices; in positional (or
parameter-free) mode passes the template through except for slice
expansion.  Driver rebinding to `$N` syntax is the identity on the
generic `?` form used here (the tests rebind explicitly). -/
def prepareImpl (query : String) (ps : List Param) : Except PrepErr (String × List Val) :=
  match extractParams ps with
  | .error e => .error e
  | .ok (.inl env) =>
      match replCond env query.data with
      | .error e => .error e
      | .ok q1 =>
          match bindNamed env q1 with
          | .error e => .error e
          | .ok (q2, args) =>
              match sqlxIn q2 args with
              | .error e => .error e
              | .ok (q3, args2) => .ok (String.mk q3, args2)
  | .ok (.inr args) =>
      match sqlxIn query.data args with
      | .error e => .error e
      | .ok (q3, args2) => .ok (String.mk q3, args2)

/-! Transaction coordinator (§4.3).  A `Handle` is the `DB` value a
context carries: the plain connection or a transaction-scoped wrapper
(`zTX`).  A `World` is the observable database state: the rows
committed so far, the one live native transaction with its pending
statement effects, and counters of the physical commit/rollback
operations performed at the native layer. -/

/-- A `zdb.DB` handle as carried by a context: the base connection or
a transaction handle owning native transaction `id`. -/
inductive Handle where
  | base
  | tx (id : Nat)
deriving DecidableEq

/-- The context (`context.Context`): it either carries a DB handle
under the zdb context key or carries none. -/
structure Ctx where
  db : Option Handle
deriving DecidableEq

/-- Errors crossing the transaction boundary.  `errTransactionStarted`
models the sentinel `var ErrTransactionStarted = errors.New(...)` of
`zdb.go`: a distinct value collaborators compare against directly,
not message text.  `oops` models any other Go error value. -/
inductive Err where
  | errTransactionStarted
  | oops (msg : String)
deriving DecidableEq

/-- Observable database state: committed rows, the live native
transaction (its id and pending, not-yet-visible statement effects),
the next fresh native-transaction id, and counters of physical
commits and rollbacks performed. -/
structure World where
  committed : List String
  live : Option (Nat × List String)
  nextId : Nat
  commits : Nat
  rollbacks : Nat
deriving DecidableEq

/-- Modelled from the spec: the missing `beginImpl` (§4.3).  From
`Idle` it opens a native transaction and returns a copy of the
context carrying the transaction handle plus the handle; from
`Active` (the context already carries a transaction) it opens
nothing and returns the same context and same handle together with
the `ErrTransactionStarted` signal. -/
def beginImpl (ctx : Ctx) (db : Handle) (w : World) : Ctx × Handle × Option Err × World :=
  match db with
  | .tx i => (ctx, .tx i, some .errTransactionStarted, w)
  | .base =>
      ({ db := some (.tx w.nextId) }, .tx w.nextId, none,
        { w with live := some (w.nextId, []), nextId := w.nextId + 1 })

/-- Physical commit: publishes the pending effects of the matching
live transaction and closes it.  On a non-transaction handle, or
after the transaction is resolved, it only returns an error
(`zdb.go`: "If this is not a transaction, then Commit() and
Rollback() will always return an error"). -/
def commitTx (h : Handle) (w : World) : World × Option Err :=
  match h with
  | .base => (w, some (.oops "not a transaction"))
  | .tx i =>
      match w.live with
      | some (j, pend) =>
          if i = j then
            ({ w with committed := w.committed ++ pend, live := none,
                      commits := w.commits + 1 }, none)
          else (w, some (.oops "transaction has already been committed or rolled back"))
      | none => (w, some (.oops "transaction has already been committed or rolled back"))

/-- Physical rollback: discards the pending effects of the matching
live transaction and closes it. -/
def rollbackTx (h : Handle) (w : World) : World × Option Err :=
  match h with
  | .base => (w, some (.oops "not a transaction"))
  | .tx i =>
      match w.live with
      | some (j, pend) =>
          if i = j then
            ({ w with live := none, rollbacks := w.rollbacks + 1 }, none)
          else (w, some (.oops "transaction has already been committed or rolled back"))
      | none => (w, some (.oops "transaction has already been committed or rolled back"))

/-- Executing one statement through the handle carried by the
context: on the base connection its effect is committed immediately
(auto-commit); on a transaction handle it is appended to the live
transaction's pending effects, invisible until resolution. -/
def execStmt (ctx : Ctx) (w : World) (s : String) : World × Option Err :=
  match ctx.db with
  | none => (w, some (.oops "zdb.MustGetDB: no DB on this context"))
  | some .base => ({ w with committed := w.committed ++ [s] }, none)
  | some (.tx i) =>
      match w.live with
      | some (j, pend) =>
          if i = j then ({ w with live := some (j, pend ++ [s]) }, none)
          else (w, some (.oops "transaction has already been committed or rolled back"))
      | none => (w, some (.oops "transaction has already been committed or rolled back"))

/-- A callback body as passed to `TX`: a sequence of statements,
nested `TX` calls and error returns.  Error returns propagate
outward through `seq`, as in the tests (`return err`). -/
inductive Prog where
  | exec (s : String)
  | fail (msg : String)
  | seq (a b : Prog)
  | tx (body : Prog)

/-- Modelled from the spec: the missing `txImpl` / `runInTransaction`
interpreter (§4.3).  `tx body` begins (or reuses) a transaction: the
call that actually opened it commits on a nil outcome and rolls back
on an error (the rollback's own error being discarded, the
callback's error propagated unchanged); a nested call that received
the already-started signal runs its callback on the same context and
merely propagates the outcome, performing no resolution of its own. -/
def run : Prog → Ctx → World → World × Option Err
  | .exec s, ctx, w => execStmt ctx w s
  | .fail m, _, w => (w, some (.oops m))
  | .seq a b, ctx, w =>
      match run a ctx w with
      | (w1, none) => run b ctx w1
      | (w1, some e) => (w1, some e)
  | .tx p, ctx, w =>
      match ctx.db with
      | none => (w, some (.oops "zdb.MustGetDB: no DB on this context"))
      | some db =>
          match beginImpl ctx db w with
          | (txctx, txdb, some _, w1) => run p txctx w1
          | (txctx, txdb, none, w1) =>
              match run p txctx w1 with
              | (w2, none) => commitTx txdb w2
              | (w2, some e) => ((rollbackTx txdb w2).1, some e)

/-- The missing `txImpl` as called by `zdb.TX`: begin or reuse,
run the callback, resolve only if this call opened the transaction. -/
def txImpl (ctx : Ctx) (db : Handle) (p : Prog) (w : World) : World × Option Err :=
  match beginImpl ctx db w with
  | (txctx, txdb, some _, w1) => run p txctx w1
  | (txctx, txdb, none, w1) =>
      match run p txctx w1 with
      | (w2, none) => commitTx txdb w2
      | (w2, some e) => ((rollbackTx txdb w2).1, some e)

/-! The public entry points of `zdb.go`.  Each one calls
`MustGetDB(ctx)` first and hands the result to the corresponding
implementation function; with no DB on the context that call panics. -/

/-- Outcome of calling a Go function that may panic. -/
inductive Outcome (α : Type) where
  | panicked (msg : String)
  | ok (a : α)
deriving DecidableEq

/-- `zdb.GetDB`: the DB from the context together with the ok flag,
never panicking. -/
def GetDB (ctx : Ctx) : Option Handle × Bool :=
  (ctx.db, ctx.db.isSome)

/-- Panic message of `zdb.MustGetDB` (the Go code appends the
formatted context value). -/
def noDBPanicMsg : String :=
  "zdb.MustGetDB: no DB on this context"

/-- `zdb.MustGetDB`: the DB from the context, panicking if there is
none. -/
def MustGetDB (ctx : Ctx) : Outcome Handle :=
  match ctx.db with
  | some db => .ok db
  | none => .panicked noDBPanicMsg

/-- `zdb.Prepare`: `prepareImpl(ctx, MustGetDB(ctx), query, params...)`.
The handle only selects driver bind syntax, which the model keeps in
generic `?` form. -/
def Prepare (ctx : Ctx) (query : String) (ps : List Param) :
    Outcome (Except PrepErr (String × List Val)) :=
  match MustGetDB ctx with
  | .panicked m => .panicked m
  | .ok _db => .ok (prepareImpl query ps)

/-- `zdb.Exec`: `execImpl(ctx, MustGetDB(ctx), ...)`. -/
def Exec (ctx : Ctx) (w : World) (query : String) : Outcome (World × Option Err) :=
  match MustGetDB ctx with
  | .panicked m => .panicked m
  | .ok _db => .ok (execStmt ctx w query)

/-- Modelled from the spec: `zdb.Query` prepares the query through the
same pipeline and hands it to the native driver, whose execution is an
external collaborator; the model returns the prepared statement.  The
`MustGetDB` dispatch is the part taken from `zdb.go`. -/
def Query (ctx : Ctx) (query : String) (ps : List Param) :
    Outcome (Except PrepErr (String × List Val)) :=
  match MustGetDB ctx with
  | .panicked m => .panicked m
  | .ok _db => .ok (prepareImpl query ps)

/-- `zdb.Begin`: `beginImpl(ctx, MustGetDB(ctx))`. -/
def Begin (ctx : Ctx) (w : World) : Outcome (Ctx × Handle × Option Err × World) :=
  match MustGetDB ctx with
  | .panicked m => .panicked m
  | .ok db => .ok (beginImpl ctx db w)

/-- `zdb.TX`: `txImpl(ctx, MustGetDB(ctx), fn)`. -/
def TX (ctx : Ctx) (p : Prog) (w : World) : Outcome (World × Option Err) :=
  match MustGetDB ctx with
  | .panicked m => .panicked m
  | .ok db => .ok (txImpl ctx db p w)

/-! The `Unwrap` helper of `zdb.go`.  A `DB` value is the plain
connection, a transaction, or a wrapper embedding an inner `DB`
(logging wrappers and the like); only wrappers implement the
`Unwrap() DB` method, which returns the embedded parent. -/

/-- A `zdb.DB` value for the purposes of `Unwrap`: plain connection,
transaction, or a feature wrapper around an inner DB. -/
inductive DBV where
  | conn (id : Nat)
  | txv (id : Nat)
  | wrapper (inner : DBV)
deriving DecidableEq

/-- Whether the dynamic type assertion
`db.(interface{ Unwrap() DB })` succeeds: only wrapper types
implement the `Unwrap() DB` method. -/
def hasUnwrapMethod : DBV → Bool
  | .wrapper _ => true
  | _ => false

/-- `zdb.Unwrap`: if the value does not implement `Unwrap() DB` it is
returned as is; otherwise `Unwrap` recurses on the wrapped parent. -/
def Unwrap : DBV → DBV
  | .wrapper inner => Unwrap inner
  | .conn i => .conn i
  | .txv i => .txv i

/-- True when the template text contains a positional `?`
placeholder. -/
def hasQuestion (l : List Char) : Bool :=
  l.any (fun c => c = '?')

/-- True when the template text contains a named `:identifier`
placeholder. -/
def hasNamedPlaceholder : List Char → Bool
  | [] => false
  | c :: rest =>
      (c = ':' && (rest.head?.map isIdentChar).getD false) || hasNamedPlaceholder rest

/-- True when the template text contains an explicit `$N` positional
placeholder. -/
def hasDollarPlaceholder : List Char → Bool
  | [] => false
  | c :: rest =>
      (c = '$' && (rest.head?.map Char.isDigit).getD false) || hasDollarPlaceholder rest

/-- A named parameter source of either kind, selected by `b`: a map or
a record.  Used to state facts that hold for any combination of source
kinds. -/
def mkNamed (b : Bool) (kvs : List (String × Val)) : Param :=
  if b then .map kvs else .record kvs

/-! Helper lemmas about the scanners. -/

theorem dropWhile_len_le (p : Char → Bool) (l : List Char) :
    (l.dropWhile p).length ≤ l.length := by
  induction l with
  | nil => simp
  | cons c rest ih =>
      simp only [List.dropWhile]
      cases h : p c
      · simp
      · simp only [List.length_cons]
        omega

theorem tail_len_le (l : List Char) : l.tail.length ≤ l.length := by
  cases l <;> simp

theorem head?_eq_cons (l : List Char) (c : Char) (h : l.head? = some c) :
    l = c :: l.tail := by
  cases l with
  | nil => simp at h
  | cons a t => simp only [List.head?, Option.some.injEq] at h; simp [h]

theorem splitClose_shape (l frag after : List Char) (h : splitClose l = some (frag, after)) :
    l = frag ++ '}' :: '}' :: after := by
  induction l generalizing frag with
  | nil => simp [splitClose] at h
  | cons c rest ih =>
      rw [splitClose] at h
      by_cases hc : c = '}' ∧ rest.head? = some '}'
      · rw [if_pos hc] at h
        obtain ⟨hc1, hc2⟩ := hc
        have hrest := head?_eq_cons rest '}' hc2
        simp only [Option.some.injEq, Prod.mk.injEq] at h
        obtain ⟨h1, h2⟩ := h
        subst h1 hc1
        rw [List.nil_append, ← h2]
        conv_lhs => rw [hrest]
      · rw [if_neg hc] at h
        cases hsc : splitClose rest with
        | none => rw [hsc] at h; cases h
        | some p =>
            rw [hsc] at h
            cases p with
            | mk f2 a2 =>
                simp only [Option.some.injEq, Prod.mk.injEq] at h
                obtain ⟨h1, h2⟩ := h
                subst h1 h2
                have := ih f2 hsc
                simp [this]

theorem splitClose_length (l frag after : List Char) (h : splitClose l = some (frag, after)) :
    after.length + 2 ≤ l.length := by
  have := splitClose_shape l frag after h
  subst this
  simp only [List.length_append, List.length_cons]
  omega

theorem parseBlock_length (l : List Char) (name : String) (neg : Bool)
    (frag after : List Char) (h : parseBlock l = some (name, neg, frag, after)) :
    after.length < l.length := by
  rw [parseBlock] at h
  by_cases hcol : l.head? = some ':'
  · rw [if_pos hcol] at h
    by_cases hemp : (l.tail.takeWhile isIdentChar).isEmpty
    · simp [hemp] at h
    · simp only [hemp, Bool.false_eq_true, if_false] at h
      set r2 := l.tail.dropWhile isIdentChar with hr2
      set r3 := if (r2.head? = some '!' : Bool) then r2.tail else r2 with hr3
      cases hsc : splitClose r3 with
      | none => rw [hsc] at h; cases h
      | some p =>
          rw [hsc] at h
          cases p with
          | mk f2 a2 =>
              simp only [Option.some.injEq, Prod.mk.injEq] at h
              obtain ⟨_, _, _, h4⟩ := h
              subst h4
              have hlen := splitClose_length r3 f2 a2 hsc
              have h3le : r3.length ≤ r2.length := by
                rw [hr3]
                by_cases hb : (r2.head? = some '!' : Bool)
                · simp only [hb, if_true]
                  exact tail_len_le r2
                · simp [hb]
              have h2le : r2.length ≤ l.tail.length := by
                rw [hr2]
                exact dropWhile_len_le _ _
              have hl : l = ':' :: l.tail := head?_eq_cons l ':' hcol
              have : l.length = l.tail.length + 1 := by rw [hl]; simp
              omega
  · rw [if_neg hcol] at h
    cases h

theorem replCondF_congr (env : List (String × Val)) (f1 : Nat) :
    ∀ (f2 : Nat) (l : List Char), l.length ≤ f1 → l.length ≤ f2 →
      replCondF env f1 l = replCondF env f2 l := by
  induction f1 with
  | zero =>
      intro f2 l h1 h2
      have : l = [] := List.eq_nil_of_length_eq_zero (Nat.le_zero.mp h1)
      subst this
      cases f2 <;> rfl
  | succ g1 ih =>
      intro f2 l h1 h2
      cases l with
      | nil => cases f2 <;> rfl
      | cons c rest =>
          cases f2 with
          | zero => simp at h2
          | succ g2 =>
              simp only [List.length_cons, Nat.succ_le_succ_iff] at h1 h2
              simp only [replCondF]
              by_cases hc : c = '{' ∧ rest.head? = some '{'
              · rw [if_pos hc, if_pos hc]
                cases hpb : parseBlock rest.tail with
                | none =>
                    have ht := tail_len_le rest
                    dsimp only
                    rw [ih g2 rest.tail (by omega) (by omega)]
                | some r =>
                    obtain ⟨name, neg, frag, after⟩ := r
                    have ha := parseBlock_length rest.tail name neg frag after hpb
                    have ht := tail_len_le rest
                    dsimp only
                    cases lookupVal env name with
                    | none => rfl
                    | some v =>
                        dsimp only
                        rw [ih g2 after (by omega) (by omega)]
              · rw [if_neg hc, if_neg hc]
                rw [ih g2 rest (by omega) (by omega)]

theorem bindNamedF_congr (env : List (String × Val)) (f1 : Nat) :
    ∀ (f2 : Nat) (l : List Char), l.length ≤ f1 → l.length ≤ f2 →
      bindNamedF env f1 l = bindNamedF env f2 l := by
  induction f1 with
  | zero =>
      intro f2 l h1 h2
      have : l = [] := List.eq_nil_of_length_eq_zero (Nat.le_zero.mp h1)
      subst this
      cases f2 <;> rfl
  | succ g1 ih =>
      intro f2 l h1 h2
      cases l with
      | nil => cases f2 <;> rfl
      | cons c rest =>
          cases f2 with
          | zero => simp at h2
          | succ g2 =>
              simp only [List.length_cons, Nat.succ_le_succ_iff] at h1 h2
              simp only [bindNamedF]
              by_cases hc : c = ':' ∧ (rest.head?.map isIdentChar).getD false
              · rw [if_pos hc, if_pos hc]
                cases lookupVal env (String.mk (rest.takeWhile isIdentChar)) with
                | none => rfl
                | some v =>
                    have hd := dropWhile_len_le isIdentChar rest
                    rw [ih g2 (rest.dropWhile isIdentChar) (by omega) (by omega)]
              · rw [if_neg hc, if_neg hc]
                rw [ih g2 rest (by omega) (by omega)]

theorem replCond_nil (env : List (String × Val)) : replCond env [] = .ok [] := rfl

theorem replCond_cons (env : List (String × Val)) (c : Char) (rest : List Char) :
    replCond env (c :: rest) =
      if c = '{' ∧ rest.head? = some '{' then
        match parseBlock rest.tail with
        | none =>
            match replCond env rest.tail with
            | .error e => .error e
            | .ok t => .ok ('{' :: '{' :: t)
        | some (name, neg, frag, after) =>
            match lookupVal env name with
            | none => .error (.couldNotFind name)
            | some v =>
                match replCond env after with
                | .error e => .error e
                | .ok t => .ok ((if truthy v != neg then frag else []) ++ t)
      else
        match replCond env rest with
        | .error e => .error e
        | .ok t => .ok (c :: t) := by
  show replCondF env (rest.length + 1) (c :: rest) = _
  simp only [replCondF]
  by_cases hc : c = '{' ∧ rest.head? = some '{'
  · rw [if_pos hc, if_pos hc]
    cases hpb : parseBlock rest.tail with
    | none =>
        have ht := tail_len_le rest
        dsimp only
        rw [show replCond env rest.tail = replCondF env rest.tail.length rest.tail from rfl]
        rw [replCondF_congr env rest.length rest.tail.length rest.tail (by omega) (by omega)]
    | some r =>
        obtain ⟨name, neg, frag, after⟩ := r
        have ha := parseBlock_length rest.tail name neg frag after hpb
        have ht := tail_len_le rest
        dsimp only
        cases lookupVal env name with
        | none => rfl
        | some v =>
            dsimp only
            rw [show replCond env after = replCondF env after.length after from rfl]
            rw [replCondF_congr env rest.length after.length after (by omega) (by omega)]
  · rw [if_neg hc, if_neg hc]
    rfl

theorem bindNamed_nil (env : List (String × Val)) : bindNamed env [] = .ok ([], []) := rfl

theorem bindNamed_cons (env : List (String × Val)) (c : Char) (rest : List Char) :
    bindNamed env (c :: rest) =
      if c = ':' ∧ (rest.head?.map isIdentChar).getD false then
        match lookupVal env (String.mk (rest.takeWhile isIdentChar)) with
        | none => .error (.couldNotFind (String.mk (rest.takeWhile isIdentChar)))
        | some v =>
            match bindNamed env (rest.dropWhile isIdentChar) with
            | .error e => .error e
            | .ok (q, args) => .ok ('?' :: q, v :: args)
      else
        match bindNamed env rest with
        | .error e => .error e
        | .ok (q, args) => .ok (c :: q, args) := by
  show bindNamedF env (rest.length + 1) (c :: rest) = _
  simp only [bindNamedF]
  by_cases hc : c = ':' ∧ (rest.head?.map isIdentChar).getD false
  · rw [if_pos hc, if_pos hc]
    cases lookupVal env (String.mk (rest.takeWhile isIdentChar)) with
    | none => rfl
    | some v =>
        have hd := dropWhile_len_le isIdentChar rest
        rw [show bindNamed env (rest.dropWhile isIdentChar)
              = bindNamedF env (rest.dropWhile isIdentChar).length (rest.dropWhile isIdentChar) from rfl]
        rw [bindNamedF_congr env rest.length (rest.dropWhile isIdentChar).length
              (rest.dropWhile isIdentChar) (by omega) (by omega)]
  · rw [if_neg hc, if_neg hc]
    rfl

/-! Claim theorems. -/

/-- Text containing no `{{` pair is passed through by the
conditional-block scan, which continues on whatever follows it. -/
theorem replCond_append (env : List (String × Val)) (pre : List Char) :
    ∀ l : List Char, noOpen (pre ++ ['{']) = true →
      replCond env (pre ++ l) =
        match replCond env l with
        | .error e => .error e
        | .ok t => .ok (pre ++ t) := by
  induction pre with
  | nil =>
      intro l _
      simp only [List.nil_append]
      cases h : replCond env l <;> simp [h]
  | cons c pre2 ih =>
      intro l hpre
      have hsplit : ∀ r : List Char,
          noOpen (c :: r) = if c = '{' ∧ r.head? = some '{' then false else noOpen r :=
        fun r => by rw [noOpen]
      rw [List.cons_append, hsplit] at hpre
      by_cases hc : c = '{' ∧ (pre2 ++ ['{']).head? = some '{'
      · rw [if_pos hc] at hpre
        cases hpre
      · rw [if_neg hc] at hpre
        have hcond : ¬(c = '{' ∧ (pre2 ++ l).head? = some '{') := by
          rintro ⟨hc1, hc2⟩
          apply hc
          refine ⟨hc1, ?_⟩
          cases pre2 with
          | nil => rfl
          | cons d t =>
              simp only [List.cons_append, List.head?] at hc2
              simp only [List.cons_append, List.head?]
              exact hc2
        rw [List.cons_append, replCond_cons, if_neg hcond, ih l hpre]
        cases h : replCond env l <;> simp [h]

theorem map_pos_any_isNamedSource (vs : List Val) :
    (vs.map Param.pos).any isNamedSource = false := by
  induction vs with
  | nil => rfl
  | cons v t ih => simp only [List.map_cons, List.any_cons, ih, isNamedSource, Bool.or_false]

theorem map_pos_filterMap (vs : List Val) :
    (vs.map Param.pos).filterMap getPos = vs := by
  rw [List.filterMap_map]
  have hcomp : (getPos ∘ Param.pos) = some := by
    funext v
    rfl
  rw [hcomp, List.filterMap_some]

theorem any_isExpandable_false (vs : List Val)
    (h : vs.all (fun v => !isExpandable v) = true) :
    vs.any isExpandable = false := by
  rw [List.all_eq_true] at h
  rw [List.any_eq_false]
  intro v hv
  have := h v hv
  simp only [Bool.not_eq_true'] at this
  simp [this]

/-- In positional mode with no expandable slice among the arguments
the template and the arguments pass through `prepare` unchanged. -/
theorem prepare_positional_passthrough (q : String) (vs : List Val)
    (hnoexp : vs.all (fun v => !isExpandable v) = true) :
    prepareImpl q (vs.map Param.pos) = .ok (q, vs) := by
  have hnone : (vs.map Param.pos).any isNamedSource = false :=
    map_pos_any_isNamedSource vs
  have hfm : (vs.map Param.pos).filterMap getPos = vs := map_pos_filterMap vs
  have hany : vs.any isExpandable = false := any_isExpandable_false vs hnoexp
  rw [prepareImpl, extractParams, hnone]
  simp only [Bool.false_eq_true, if_false, hfm]
  rw [sqlxIn, hany]
  simp only [Bool.false_eq_true, if_false]

theorem takeWhile_append_of_all (p : Char → Bool) (l suffix : List Char)
    (hall : l.all p = true)
    (hsuf : (suffix.head?.map p).getD false = false) :
    (l ++ suffix).takeWhile p = l ∧ (l ++ suffix).dropWhile p = suffix := by
  induction l with
  | nil =>
      simp only [List.nil_append]
      cases suffix with
      | nil => exact ⟨rfl, rfl⟩
      | cons s t =>
          simp only [List.head?, Option.map_some', Option.getD_some] at hsuf
          constructor
          · simp [List.takeWhile, hsuf]
          · simp [List.dropWhile, hsuf]
  | cons c rest ih =>
      simp only [List.all_cons, Bool.and_eq_true] at hall
      obtain ⟨hpc, hrest⟩ := hall
      obtain ⟨ih1, ih2⟩ := ih hrest
      constructor
      · simp [List.takeWhile, hpc, ih1]
      · simp [List.dropWhile, hpc, ih2]

theorem splitClose_complete (frag : List Char) :
    ∀ post : List Char, noClose (frag ++ ['}']) = true →
      splitClose (frag ++ '}' :: '}' :: post) = some (frag, post) := by
  induction frag with
  | nil =>
      intro post _
      rw [List.nil_append, splitClose, if_pos ⟨rfl, rfl⟩]
      rfl
  | cons c frag2 ih =>
      intro post h
      have hsplit : ∀ r : List Char,
          noClose (c :: r) = if c = '}' ∧ r.head? = some '}' then false else noClose r :=
        fun r => by rw [noClose]
      rw [List.cons_append, hsplit] at h
      by_cases hc : c = '}' ∧ (frag2 ++ ['}']).head? = some '}'
      · rw [if_pos hc] at h
        cases h
      · rw [if_neg hc] at h
        have hcond : ¬(c = '}' ∧ (frag2 ++ '}' :: '}' :: post).head? = some '}') := by
          rintro ⟨h1, h2⟩
          apply hc
          refine ⟨h1, ?_⟩
          cases frag2 with
          | nil => rfl
          | cons d t =>
              simp only [List.cons_append, List.head?] at h2
              simp only [List.cons_append, List.head?]
              exact h2
        rw [List.cons_append, splitClose, if_neg hcond, ih post h]

theorem noClose_cons_of (c : Char) (l : List Char) (hc : c ≠ '}')
    (h : noClose l = true) : noClose (c :: l) = true := by
  rw [noClose]
  have : ¬(c = '}' ∧ l.head? = some '}') := by
    rintro ⟨h1, _⟩
    exact hc h1
  rw [if_neg this]
  exact h

theorem name_isEmpty_false (name : List Char) (hne : name ≠ []) :
    name.isEmpty = false := by
  cases name with
  | nil => exact absurd rfl hne
  | cons c t => rfl

theorem parseBlock_colon (rest : List Char) :
    parseBlock (':' :: rest) =
      if (rest.takeWhile isIdentChar).isEmpty then none
      else
        match splitClose (if (decide ((rest.dropWhile isIdentChar).head? = some '!')) = true
                          then (rest.dropWhile isIdentChar).tail
                          else rest.dropWhile isIdentChar) with
        | none => none
        | some (frag, after) =>
            some (String.mk (rest.takeWhile isIdentChar),
                  decide ((rest.dropWhile isIdentChar).head? = some '!'),
                  dropSpace frag, after) := by
  rw [parseBlock]
  rw [if_pos (show (':' :: rest).head? = some ':' from rfl)]
  rfl

theorem parseBlock_wf (name frag post : List Char) (neg : Bool)
    (hne : name ≠ []) (hid : name.all isIdentChar = true)
    (hfrag : noClose (frag ++ ['}']) = true) :
    parseBlock (':' :: (name ++ ((if neg then ['!'] else []) ++ ' ' :: (frag ++ '}' :: '}' :: post))))
      = some (String.mk name, neg, frag, post) := by
  have hsufhead : (((if neg then ['!'] else []) ++ ' ' :: (frag ++ '}' :: '}' :: post)).head?.map
      isIdentChar).getD false = false := by
    cases neg <;> simp [isIdentChar]
  obtain ⟨htw, hdw⟩ := takeWhile_append_of_all isIdentChar name
    ((if neg then ['!'] else []) ++ ' ' :: (frag ++ '}' :: '}' :: post)) hid hsufhead
  have hspace : noClose ((' ' :: frag) ++ ['}']) = true := by
    rw [List.cons_append]
    exact noClose_cons_of ' ' (frag ++ ['}']) (by decide) hfrag
  have hsc : splitClose ((' ' :: frag) ++ '}' :: '}' :: post) = some (' ' :: frag, post) :=
    splitClose_complete (' ' :: frag) post hspace
  rw [parseBlock_colon, htw, hdw, name_isEmpty_false name hne]
  simp only [Bool.false_eq_true, if_false]
  have hsc2 : splitClose (' ' :: (frag ++ '}' :: '}' :: post)) = some (' ' :: frag, post) := hsc
  cases neg with
  | true =>
      show (match splitClose (' ' :: (frag ++ '}' :: '}' :: post)) with
            | none => none
            | some (frag2, after) => some (String.mk name, true, dropSpace frag2, after))
          = some (String.mk name, true, frag, post)
      rw [hsc2]
      rfl
  | false =>
      show (match splitClose (' ' :: (frag ++ '}' :: '}' :: post)) with
            | none => none
            | some (frag2, after) => some (String.mk name, false, dropSpace frag2, after))
          = some (String.mk name, false, frag, post)
      rw [hsc2]
      rfl

/-- A well-formed conditional block inside a template is replaced by
its fragment exactly when its value is truthy XOR negated, and by the
empty string otherwise; the surrounding text is untouched. -/
theorem replCond_block (env : List (String × Val))
    (pre name frag post postOut : List Char) (neg : Bool) (v : Val)
    (hpre : noOpen (pre ++ ['{']) = true)
    (hne : name ≠ []) (hid : name.all isIdentChar = true)
    (hfrag : noClose (frag ++ ['}']) = true)
    (hv : lookupVal env (String.mk name) = some v)
    (hpost : replCond env post = .ok postOut) :
    replCond env (pre ++ '{' :: '{' :: ':' ::
        (name ++ ((if neg then ['!'] else []) ++ ' ' :: (frag ++ '}' :: '}' :: post))))
      = .ok (pre ++ ((if truthy v != neg then frag else []) ++ postOut)) := by
  rw [replCond_append env pre _ hpre, replCond_cons, if_pos ⟨rfl, rfl⟩]
  simp only [List.tail_cons]
  rw [parseBlock_wf name frag post neg hne hid hfrag]
  simp only [hv, hpost]

theorem addPairs_ok (kvs : List (String × Val)) :
    ∀ acc : List (String × Val), (kvs.map Prod.fst).Nodup →
      (∀ p ∈ acc, p.1 ∉ kvs.map Prod.fst) →
      addPairs kvs acc = .ok (acc ++ kvs) := by
  induction kvs with
  | nil => intro acc _ _; simp [addPairs]
  | cons kv rest ih =>
      intro acc hnd hdisj
      obtain ⟨k, v⟩ := kv
      have hnotin : acc.any (fun p => p.1 = k) = false := by
        by_contra hc
        rw [Bool.not_eq_false, List.any_eq_true] at hc
        obtain ⟨p, hp, hpk⟩ := hc
        exact hdisj p hp (by simp [of_decide_eq_true hpk])
      rw [addPairs, hnotin]
      simp only [Bool.false_eq_true, if_false]
      rw [ih (acc ++ [(k, v)]) ?hnd ?hdisj]
      · simp
      case hnd =>
        simp only [List.map_cons, List.nodup_cons] at hnd
        exact hnd.2
      case hdisj =>
        intro p hp
        rcases List.mem_append.mp hp with hl | hr
        · intro hmem
          exact hdisj p hl (by simp [hmem])
        · simp only [List.mem_singleton] at hr
          subst hr
          simp only [List.map_cons, List.nodup_cons] at hnd
          exact hnd.1

theorem mkNamed_isNamedSource (b : Bool) (kvs : List (String × Val)) :
    isNamedSource (mkNamed b kvs) = true := by
  cases b <;> rfl

theorem mkNamed_getPos (b : Bool) (kvs : List (String × Val)) :
    getPos (mkNamed b kvs) = none := by
  cases b <;> rfl

theorem mkNamed_namedPairs (b : Bool) (kvs : List (String × Val)) :
    namedPairs (mkNamed b kvs) = kvs := by
  cases b <;> rfl

theorem extractParams_single_named (b : Bool) (kvs : List (String × Val))
    (hnd : (kvs.map Prod.fst).Nodup) :
    extractParams [mkNamed b kvs] = .ok (.inl kvs) := by
  rw [extractParams]
  have hany : [mkNamed b kvs].any isNamedSource = true := by
    simp [mkNamed_isNamedSource]
  rw [if_pos hany]
  have hfm : ([mkNamed b kvs].filterMap getPos).isEmpty = true := by
    simp [List.filterMap_cons, mkNamed_getPos]
  rw [if_pos hfm]
  rw [mergeNamed, mkNamed_namedPairs]
  have ha := addPairs_ok kvs [] hnd (by intro p hp; cases hp)
  rw [List.nil_append] at ha
  rw [ha]
  rfl

/-- The whole named-mode pipeline of `prepare`, stated through its
three stages: conditional blocks, named binding, slice expansion. -/
theorem prepareImpl_named_pipeline (b : Bool) (kvs : List (String × Val)) (q : String)
    (q1 qres : List Char) (argres : List Val)
    (hnd : (kvs.map Prod.fst).Nodup)
    (hrc : replCond kvs q.data = .ok q1)
    (hbn : bindNamed kvs q1 = .ok (qres, argres))
    (hex : argres.all (fun a => !isExpandable a) = true) :
    prepareImpl q [mkNamed b kvs] = .ok (String.mk qres, argres) := by
  have hsq : sqlxIn qres argres = .ok (qres, argres) := by
    rw [sqlxIn, any_isExpandable_false argres hex]
    simp only [Bool.false_eq_true, if_false]
  rw [prepareImpl, extractParams_single_named b kvs hnd]
  dsimp only
  rw [hrc]
  dsimp only
  rw [hbn]
  dsimp only
  rw [hsq]

/-- Claim C4: for a well-formed conditional block `{{:id[!] fragment}}`
in a named-mode template, `prepare` replaces the block by the fragment
(whose own placeholders are then resolved, their values entering the
argument list) exactly when the value bound to the identifier is
truthy XOR the negate flag is present, and by the empty string
otherwise, in which case the fragment's placeholders are never
resolved (the fragment is arbitrary text) and contribute no arguments.
The controlling value comes out of the merged source, map or record
alike (`b` selects the kind). -/
theorem conditional_block_prepare
    (b : Bool) (kvs : List (String × Val))
    (pre name frag post postOut qk q0 : List Char) (neg : Bool) (v : Val)
    (argsk args0 : List Val)
    (hnd : (kvs.map Prod.fst).Nodup)
    (hpre : noOpen (pre ++ ['{']) = true)
    (hne : name ≠ []) (hid : name.all isIdentChar = true)
    (hfrag : noClose (frag ++ ['}']) = true)
    (hv : lookupVal kvs (String.mk name) = some v)
    (hpost : replCond kvs post = .ok postOut)
    (hbindK : bindNamed kvs (pre ++ (frag ++ postOut)) = .ok (qk, argsk))
    (hexpK : argsk.all (fun a => !isExpandable a) = true)
    (hbind0 : bindNamed kvs (pre ++ postOut) = .ok (q0, args0))
    (hexp0 : args0.all (fun a => !isExpandable a) = true) :
    ((truthy v != neg) = true →
        prepareImpl (String.mk (pre ++ '{' :: '{' :: ':' ::
            (name ++ ((if neg then ['!'] else []) ++ ' ' :: (frag ++ '}' :: '}' :: post)))))
          [mkNamed b kvs] = .ok (String.mk qk, argsk)) ∧
    ((truthy v != neg) = false →
        prepareImpl (String.mk (pre ++ '{' :: '{' :: ':' ::
            (name ++ ((if neg then ['!'] else []) ++ ' ' :: (frag ++ '}' :: '}' :: post)))))
          [mkNamed b kvs] = .ok (String.mk q0, args0)) := by
  have hblock := replCond_block kvs pre name frag post postOut neg v hpre hne hid hfrag hv hpost
  constructor
  · intro htrue
    apply prepareImpl_named_pipeline b kvs _ (pre ++ (frag ++ postOut)) qk argsk hnd ?_ hbindK hexpK
    show replCond kvs (pre ++ '{' :: '{' :: ':' ::
        (name ++ ((if neg then ['!'] else []) ++ ' ' :: (frag ++ '}' :: '}' :: post)))) = _
    rw [hblock, htrue]
    rfl
  · intro hfalse
    apply prepareImpl_named_pipeline b kvs _ (pre ++ postOut) q0 args0 hnd ?_ hbind0 hexp0
    show replCond kvs (pre ++ '{' :: '{' :: ':' ::
        (name ++ ((if neg then ['!'] else []) ++ ' ' :: (frag ++ '}' :: '}' :: post)))) = _
    rw [hblock, hfalse]
    rfl

/-- Witness for C4: the two-block row of `TestPrepare`
(`select {{:a x like :foo}} {{:b y = :bar}}` with all of `foo`, `bar`,
`a`, `b` supplied from one map) instantiated at its first block; the
second block lies in `post` and resolves through `hpost`. -/
theorem conditional_block_prepare_witness :
    ((truthy (Val.vbool true) != false) = true →
        prepareImpl (String.mk ("select ".data ++ '{' :: '{' :: ':' ::
            ("a".data ++ ((if false then ['!'] else []) ++ ' ' ::
              ("x like :foo".data ++ '}' :: '}' :: " \x7b\x7b:b y = :bar\x7d\x7d".data)))))
          [mkNamed true [("foo", Val.vstr "qwe"), ("bar", Val.vstr "zxc"),
                         ("a", Val.vbool true), ("b", Val.vbool true)]]
          = .ok (String.mk "select x like ? y = ?".data, [Val.vstr "qwe", Val.vstr "zxc"])) ∧
    ((truthy (Val.vbool true) != false) = false →
        prepareImpl (String.mk ("select ".data ++ '{' :: '{' :: ':' ::
            ("a".data ++ ((if false then ['!'] else []) ++ ' ' ::
              ("x like :foo".data ++ '}' :: '}' :: " \x7b\x7b:b y = :bar\x7d\x7d".data)))))
          [mkNamed true [("foo", Val.vstr "qwe"), ("bar", Val.vstr "zxc"),
                         ("a", Val.vbool true), ("b", Val.vbool true)]]
          = .ok (String.mk "select  y = ?".data, [Val.vstr "zxc"])) :=
  conditional_block_prepare true
    [("foo", Val.vstr "qwe"), ("bar", Val.vstr "zxc"),
     ("a", Val.vbool true), ("b", Val.vbool true)]
    "select ".data "a".data "x like :foo".data " \x7b\x7b:b y = :bar\x7d\x7d".data
    " y = :bar".data "select x like ? y = ?".data "select  y = ?".data
    false (Val.vbool true)
    [Val.vstr "qwe", Val.vstr "zxc"] [Val.vstr "zxc"]
    (by decide) rfl (by decide) (by decide) rfl rfl rfl rfl rfl rfl rfl

/-- Claim C5: a malformed conditional block (here: text after `{{`
that does not parse as `:identifier…}}`) is left verbatim in the
output and produces no error — the conditional scan emits the `{{`
and carries on, a full named-mode `prepare` on the test's template
returns it untouched, and in positional mode the whole template
passes through unchanged whatever `{{`/`}}` text it contains. -/
theorem malformed_block_left_verbatim
    (env : List (String × Val)) (pre rest restOut : List Char)
    (hpre : noOpen (pre ++ ['{']) = true)
    (hmal : parseBlock rest = none)
    (hrest : replCond env rest = .ok restOut)
    (q : String) (vs : List Val)
    (hnoexp : vs.all (fun v => !isExpandable v) = true) :
    replCond env (pre ++ '{' :: '{' :: rest) = .ok (pre ++ '{' :: '{' :: restOut) ∧
    prepareImpl q (vs.map Param.pos) = .ok (q, vs) ∧
    prepareImpl "select \x7b\x7bcond\x7d\x7d" [Param.map [("xxx", Val.vbool false)]]
      = .ok ("select \x7b\x7bcond\x7d\x7d", []) := by
  refine ⟨?_, prepare_positional_passthrough q vs hnoexp, ?_⟩
  · rw [replCond_append env pre _ hpre, replCond_cons]
    have hcond : (('{' : Char) = '{' ∧ ('{' :: rest).head? = some '{') := ⟨rfl, rfl⟩
    rw [if_pos hcond]
    simp only [List.tail_cons, hmal, hrest]
  · rfl

/-- Witness for C5: the malformed-block rows of `TestPrepare`
(`select {{cond}}` in named mode, `select {{:x cond}}` with positional
arguments). -/
theorem malformed_block_left_verbatim_witness :
    replCond [("xxx", Val.vbool false)] ("select ".data ++ '{' :: '{' :: "cond\x7d\x7d".data)
        = .ok ("select ".data ++ '{' :: '{' :: "cond\x7d\x7d".data) ∧
    prepareImpl "select \x7b\x7b:x cond\x7d\x7d" ([Val.vstr "z", Val.vint 1].map Param.pos)
        = .ok ("select \x7b\x7b:x cond\x7d\x7d", [Val.vstr "z", Val.vint 1]) ∧
    prepareImpl "select \x7b\x7bcond\x7d\x7d" [Param.map [("xxx", Val.vbool false)]]
        = .ok ("select \x7b\x7bcond\x7d\x7d", []) :=
  malformed_block_left_verbatim [("xxx", Val.vbool false)]
    "select ".data "cond\x7d\x7d".data "cond\x7d\x7d".data rfl rfl rfl
    "select \x7b\x7b:x cond\x7d\x7d" [Val.vstr "z", Val.vint 1] rfl

theorem expandIn_cons (c : Char) (rest : List Char) (vs : List Val) :
    expandIn (c :: rest) vs =
      if c = '?' then
        match vs with
        | [] => .error .tooFewArgs
        | v :: vs2 =>
            match expandIn rest vs2 with
            | .error e => .error e
            | .ok (q, args) =>
                match v with
                | .vsliceInt ns => .ok (inlineInts ns ++ q, args)
                | .vslice xs => .ok (placeholders xs.length ++ q, xs ++ args)
                | w => .ok ('?' :: q, w :: args)
      else
        match expandIn rest vs with
        | .error e => .error e
        | .ok (q, args) => .ok (c :: q, args) := rfl

/-- Text with no `?` placeholder passes through the slice-expansion
walk, which continues on the remaining text with all arguments. -/
theorem expandIn_append (pre : List Char) :
    ∀ (l : List Char) (vs : List Val), '?' ∉ pre →
      expandIn (pre ++ l) vs =
        match expandIn l vs with
        | .error e => .error e
        | .ok (q, args) => .ok (pre ++ q, args) := by
  induction pre with
  | nil =>
      intro l vs _
      simp only [List.nil_append]
      cases h : expandIn l vs with
      | error e => rfl
      | ok p => obtain ⟨q, args⟩ := p; rfl
  | cons c pre2 ih =>
      intro l vs hq
      have hc : ¬(c = '?') := by
        intro he
        exact hq (by simp [he])
      rw [List.cons_append, expandIn_cons, if_neg hc, ih l vs (fun hm => hq (by simp [hm]))]
      cases h : expandIn l vs with
      | error e => rfl
      | ok p => obtain ⟨q, args⟩ := p; rfl

/-- One `?` placeholder consumes its argument: a generic slice becomes
its length in placeholders with its elements prepended to the
remaining arguments, an integer slice is inlined with no arguments,
and any other value keeps the placeholder and the argument. -/
theorem expandIn_qmark (post : List Char) (v : Val) (args : List Val)
    (q2 : List Char) (args2 : List Val)
    (hrest : expandIn post args = .ok (q2, args2)) :
    expandIn ('?' :: post) (v :: args) =
      match v with
      | .vsliceInt ns => .ok (inlineInts ns ++ q2, args2)
      | .vslice xs => .ok (placeholders xs.length ++ q2, xs ++ args2)
      | w => .ok ('?' :: q2, w :: args2) := by
  rw [expandIn_cons, if_pos rfl]
  show ((match expandIn post args with
        | .error e => .error e
        | .ok (q, args3) =>
            match v with
            | .vsliceInt ns => .ok (inlineInts ns ++ q, args3)
            | .vslice xs => .ok (placeholders xs.length ++ q, xs ++ args3)
            | w => .ok ('?' :: q, w :: args3) :
          Except PrepErr (List Char × List Val))) = _
  rw [hrest]

/-- Positional-mode `prepare` when at least one argument is an
expandable slice: the result is the `expandIn` walk. -/
theorem prepareImpl_positional (q : String) (vs : List Val)
    (hany : vs.any isExpandable = true) (q3 : List Char) (args2 : List Val)
    (hexp : expandIn q.data vs = .ok (q3, args2)) :
    prepareImpl q (vs.map Param.pos) = .ok (String.mk q3, args2) := by
  rw [prepareImpl, extractParams, map_pos_any_isNamedSource]
  simp only [Bool.false_eq_true, if_false]
  rw [map_pos_filterMap]
  rw [sqlxIn, if_pos hany, hexp]

/-- Claim C3 counterexample: an integer-slice argument of length 2 is
inlined into the query text as literals with nothing appended to the
argument list (`TestPrepareIn`), not replaced by 2 placeholders with
its 2 elements appended as the claim states. -/
theorem slice_expansion_intslice_counterexample :
    prepareImpl "select * from t where a=? and c in (?)"
        [Param.pos (Val.vint 1), Param.pos (Val.vsliceInt [1, 2])]
      = .ok ("select * from t where a=? and c in (1, 2)", [Val.vint 1]) ∧
    ("select * from t where a=? and c in (1, 2)" : String)
      ≠ "select * from t where a=? and c in (?, ?)" := by
  constructor
  · rfl
  · decide

/-- Claim C3 (amended): in positional mode a generic slice of length N
replaces its one `?` with N consecutive placeholders and appends its N
elements in order; an integer slice (`[]int` / `[]int64`) is instead
inlined into the query text as comma-separated literals and appends
nothing; byte-slice and time values pass through one-to-one (shown
both alongside an expandable argument and, in the last conjunct, in
the pure pass-through case). -/
theorem slice_expansion_amended
    (pre post q2 : List Char) (args args2 : List Val)
    (xs : List Val) (ns : List Int) (bs : List Nat) (t : Nat)
    (q : String) (vs : List Val)
    (hpre : '?' ∉ pre)
    (hrest : expandIn post args = .ok (q2, args2))
    (hnoexp : vs.all (fun a => !isExpandable a) = true) :
    (prepareImpl (String.mk (pre ++ '?' :: post)) ((Val.vslice xs :: args).map Param.pos)
        = .ok (String.mk (pre ++ (placeholders xs.length ++ q2)), xs ++ args2)) ∧
    (prepareImpl (String.mk (pre ++ '?' :: post)) ((Val.vsliceInt ns :: args).map Param.pos)
        = .ok (String.mk (pre ++ (inlineInts ns ++ q2)), args2)) ∧
    (args.any isExpandable = true →
        prepareImpl (String.mk (pre ++ '?' :: post)) ((Val.vbytes bs :: args).map Param.pos)
          = .ok (String.mk (pre ++ '?' :: q2), Val.vbytes bs :: args2)) ∧
    (args.any isExpandable = true →
        prepareImpl (String.mk (pre ++ '?' :: post)) ((Val.vtime t :: args).map Param.pos)
          = .ok (String.mk (pre ++ '?' :: q2), Val.vtime t :: args2)) ∧
    (prepareImpl q (vs.map Param.pos) = .ok (q, vs)) := by
  have hdata : (String.mk (pre ++ '?' :: post)).data = pre ++ '?' :: post := rfl
  have hwalk : ∀ v : Val, expandIn (pre ++ '?' :: post) (v :: args) =
      match v with
      | .vsliceInt ms => .ok (pre ++ (inlineInts ms ++ q2), args2)
      | .vslice ys => .ok (pre ++ (placeholders ys.length ++ q2), ys ++ args2)
      | w => .ok (pre ++ '?' :: q2, w :: args2) := by
    intro v
    rw [expandIn_append pre ('?' :: post) (v :: args) hpre,
        expandIn_qmark post v args q2 args2 hrest]
    cases v <;> rfl
  refine ⟨?_, ?_, ?_, ?_, prepare_positional_passthrough q vs hnoexp⟩
  · apply prepareImpl_positional _ _ ?_ _ _ ?_
    · simp [isExpandable]
    · rw [hdata, hwalk]
  · apply prepareImpl_positional _ _ ?_ _ _ ?_
    · simp [isExpandable]
    · rw [hdata, hwalk]
  · intro hargs
    apply prepareImpl_positional _ _ ?_ _ _ ?_
    · simp only [List.any_cons, hargs, Bool.or_true]
    · rw [hdata, hwalk]
  · intro hargs
    apply prepareImpl_positional _ _ ?_ _ _ ?_
    · simp only [List.any_cons, hargs, Bool.or_true]
    · rw [hdata, hwalk]

/-- Witness for the amended C3 at the rows of `TestPrepareIn`: a
two-element string slice, the inlined `[]int64` slice, a byte slice
and a time value, against the template suffix `in (?)`. -/
theorem slice_expansion_amended_witness :
    (prepareImpl (String.mk ("a=".data ++ '?' :: " (?)".data))
        (([Val.vslice [Val.vstr "A", Val.vstr "B"], Val.vslice [Val.vstr "X"]]).map Param.pos)
        = .ok (String.mk ("a=".data ++ (placeholders ([Val.vstr "A", Val.vstr "B"] : List Val).length ++ " (?)".data)),
               [Val.vstr "A", Val.vstr "B"] ++ [Val.vstr "X"])) ∧
    (prepareImpl (String.mk ("a=".data ++ '?' :: " (?)".data))
        (([Val.vsliceInt [1, 2], Val.vslice [Val.vstr "X"]]).map Param.pos)
        = .ok (String.mk ("a=".data ++ (inlineInts [1, 2] ++ " (?)".data)), [Val.vstr "X"])) ∧
    (([Val.vslice [Val.vstr "X"]] : List Val).any isExpandable = true →
        prepareImpl (String.mk ("a=".data ++ '?' :: " (?)".data))
          (([Val.vbytes [65, 66], Val.vslice [Val.vstr "X"]]).map Param.pos)
          = .ok (String.mk ("a=".data ++ '?' :: " (?)".data),
                 Val.vbytes [65, 66] :: [Val.vstr "X"])) ∧
    (([Val.vslice [Val.vstr "X"]] : List Val).any isExpandable = true →
        prepareImpl (String.mk ("a=".data ++ '?' :: " (?)".data))
          (([Val.vtime 7, Val.vslice [Val.vstr "X"]]).map Param.pos)
          = .ok (String.mk ("a=".data ++ '?' :: " (?)".data),
                 Val.vtime 7 :: [Val.vstr "X"])) ∧
    (prepareImpl "select ?, ?" (([Val.vstr "A", Val.vstr "B"]).map Param.pos)
        = .ok ("select ?, ?", [Val.vstr "A", Val.vstr "B"])) :=
  slice_expansion_amended "a=".data " (?)".data " (?)".data
    [Val.vslice [Val.vstr "X"]] [Val.vstr "X"]
    [Val.vstr "A", Val.vstr "B"] [1, 2] [65, 66] 7
    "select ?, ?" [Val.vstr "A", Val.vstr "B"]
    (by decide) rfl rfl

/-- Inside an active transaction (the context carries the transaction
handle and the matching native transaction is live) a callback body
touches only the pending effects: nothing is committed, no physical
commit or rollback happens, and the same transaction stays live. -/
theorem run_in_active (p : Prog) :
    ∀ (ctx : Ctx) (w : World) (i : Nat) (pend : List String),
      ctx.db = some (Handle.tx i) → w.live = some (i, pend) →
      (run p ctx w).1.committed = w.committed ∧
      (run p ctx w).1.commits = w.commits ∧
      (run p ctx w).1.rollbacks = w.rollbacks ∧
      (run p ctx w).1.nextId = w.nextId ∧
      ∃ pend2, (run p ctx w).1.live = some (i, pend2) := by
  induction p with
  | exec s =>
      intro ctx w i pend hdb hlive
      simp only [run, execStmt, hdb, hlive]
      simp
  | fail m =>
      intro ctx w i pend hdb hlive
      exact ⟨rfl, rfl, rfl, rfl, pend, hlive⟩
  | seq a b iha ihb =>
      intro ctx w i pend hdb hlive
      simp only [run]
      obtain ⟨ha1, ha2, ha3, ha4, pend1, ha5⟩ := iha ctx w i pend hdb hlive
      cases hr : run a ctx w with
      | mk w1 r1 =>
          rw [hr] at ha1 ha2 ha3 ha4 ha5
          cases r1 with
          | none =>
              obtain ⟨hb1, hb2, hb3, hb4, pend2, hb5⟩ := ihb ctx w1 i pend1 hdb ha5
              refine ⟨by rw [hb1, ha1], by rw [hb2, ha2], by rw [hb3, ha3],
                      by rw [hb4, ha4], pend2, hb5⟩
          | some e =>
              exact ⟨ha1, ha2, ha3, ha4, pend1, ha5⟩
  | tx body ih =>
      intro ctx w i pend hdb hlive
      simp only [run, hdb, beginImpl]
      exact ih ctx w i pend hdb hlive

/-- Claim C1: a whole nest of `TX` calls performs exactly one physical
commit-or-rollback, done by the outermost call: if the nest's outcome
is an error (raised at any level and propagated) the one resolution is
a rollback and no statement effect from any level is committed; if
every callback returns nil the one resolution is a commit.  After
resolution no transaction is live. -/
theorem tx_nest_single_resolution (p : Prog) (ctx : Ctx) (w : World)
    (hdb : ctx.db = some Handle.base) (hlive : w.live = none) :
    (run (Prog.tx p) ctx w).1.commits + (run (Prog.tx p) ctx w).1.rollbacks
        = w.commits + w.rollbacks + 1 ∧
    (run (Prog.tx p) ctx w).1.live = none ∧
    ((run (Prog.tx p) ctx w).2 = none →
        (run (Prog.tx p) ctx w).1.commits = w.commits + 1 ∧
        (run (Prog.tx p) ctx w).1.rollbacks = w.rollbacks) ∧
    (∀ e, (run (Prog.tx p) ctx w).2 = some e →
        (run (Prog.tx p) ctx w).1.rollbacks = w.rollbacks + 1 ∧
        (run (Prog.tx p) ctx w).1.commits = w.commits ∧
        (run (Prog.tx p) ctx w).1.committed = w.committed) := by
  have hrun := run_in_active p ⟨some (Handle.tx w.nextId)⟩
    { w with live := some (w.nextId, []), nextId := w.nextId + 1 }
    w.nextId [] rfl rfl
  obtain ⟨h1, h2, h3, h4, pend2, h5⟩ := hrun
  have hstep : run (Prog.tx p) ctx w =
      match run p ⟨some (Handle.tx w.nextId)⟩
        { w with live := some (w.nextId, []), nextId := w.nextId + 1 } with
      | (w2, none) => commitTx (Handle.tx w.nextId) w2
      | (w2, some e) => ((rollbackTx (Handle.tx w.nextId) w2).1, some e) := by
    simp only [run, hdb, beginImpl]
  cases hr : run p ⟨some (Handle.tx w.nextId)⟩
      { w with live := some (w.nextId, []), nextId := w.nextId + 1 } with
  | mk w2 r2 =>
      rw [hr] at h1 h2 h3 h4 h5 hstep
      simp only at h1 h2 h3 h4 h5
      cases r2 with
      | none =>
          have hcommit : commitTx (Handle.tx w.nextId) w2 =
              ({ w2 with committed := w2.committed ++ pend2, live := none,
                         commits := w2.commits + 1 }, none) := by
            simp only [commitTx, h5, eq_self_iff_true, if_true]
          dsimp only at hstep
          rw [hstep, hcommit]
          dsimp only
          refine ⟨by omega, rfl, ?_, ?_⟩
          · intro _
            exact ⟨by omega, by omega⟩
          · intro e he
            cases he
      | some e =>
          have hroll : rollbackTx (Handle.tx w.nextId) w2 =
              ({ w2 with live := none, rollbacks := w2.rollbacks + 1 }, none) := by
            simp only [rollbackTx, h5, eq_self_iff_true, if_true]
          dsimp only at hstep
          rw [hstep, hroll]
          dsimp only
          refine ⟨by omega, rfl, ?_, ?_⟩
          · intro hc
            cases hc
          · intro e2 he
            exact ⟨by omega, by omega, by rw [h1]⟩

/-- Witness for C1: the `nested_inner_error` scenario of `TestTX` —
outer inserts a row, the inner nested `TX` inserts a row and fails;
the single resolution is a rollback and nothing is committed. -/
theorem tx_nest_single_resolution_witness :
    (run (Prog.tx (Prog.seq (Prog.exec "insert outer")
        (Prog.tx (Prog.seq (Prog.exec "insert inner") (Prog.fail "oh noes")))))
        ⟨some Handle.base⟩ ⟨[], none, 0, 0, 0⟩).1.commits +
      (run (Prog.tx (Prog.seq (Prog.exec "insert outer")
        (Prog.tx (Prog.seq (Prog.exec "insert inner") (Prog.fail "oh noes")))))
        ⟨some Handle.base⟩ ⟨[], none, 0, 0, 0⟩).1.rollbacks = 0 + 0 + 1 ∧
    (run (Prog.tx (Prog.seq (Prog.exec "insert outer")
        (Prog.tx (Prog.seq (Prog.exec "insert inner") (Prog.fail "oh noes")))))
        ⟨some Handle.base⟩ ⟨[], none, 0, 0, 0⟩).1.live = none ∧
    ((run (Prog.tx (Prog.seq (Prog.exec "insert outer")
        (Prog.tx (Prog.seq (Prog.exec "insert inner") (Prog.fail "oh noes")))))
        ⟨some Handle.base⟩ ⟨[], none, 0, 0, 0⟩).2 = none →
        (run (Prog.tx (Prog.seq (Prog.exec "insert outer")
          (Prog.tx (Prog.seq (Prog.exec "insert inner") (Prog.fail "oh noes")))))
          ⟨some Handle.base⟩ ⟨[], none, 0, 0, 0⟩).1.commits = 0 + 1 ∧
        (run (Prog.tx (Prog.seq (Prog.exec "insert outer")
          (Prog.tx (Prog.seq (Prog.exec "insert inner") (Prog.fail "oh noes")))))
          ⟨some Handle.base⟩ ⟨[], none, 0, 0, 0⟩).1.rollbacks = 0) ∧
    (∀ e, (run (Prog.tx (Prog.seq (Prog.exec "insert outer")
        (Prog.tx (Prog.seq (Prog.exec "insert inner") (Prog.fail "oh noes")))))
        ⟨some Handle.base⟩ ⟨[], none, 0, 0, 0⟩).2 = some e →
        (run (Prog.tx (Prog.seq (Prog.exec "insert outer")
          (Prog.tx (Prog.seq (Prog.exec "insert inner") (Prog.fail "oh noes")))))
          ⟨some Handle.base⟩ ⟨[], none, 0, 0, 0⟩).1.rollbacks = 0 + 1 ∧
        (run (Prog.tx (Prog.seq (Prog.exec "insert outer")
          (Prog.tx (Prog.seq (Prog.exec "insert inner") (Prog.fail "oh noes")))))
          ⟨some Handle.base⟩ ⟨[], none, 0, 0, 0⟩).1.commits = 0 ∧
        (run (Prog.tx (Prog.seq (Prog.exec "insert outer")
          (Prog.tx (Prog.seq (Prog.exec "insert inner") (Prog.fail "oh noes")))))
          ⟨some Handle.base⟩ ⟨[], none, 0, 0, 0⟩).1.committed = []) :=
  tx_nest_single_resolution
    (Prog.seq (Prog.exec "insert outer")
      (Prog.tx (Prog.seq (Prog.exec "insert inner") (Prog.fail "oh noes"))))
    ⟨some Handle.base⟩ ⟨[], none, 0, 0, 0⟩ rfl rfl

/-- Claim C9: `Unwrap` is idempotent, and the value it returns never
itself implements the `Unwrap() DB` method — all wrapper layers are
removed in one call. -/
theorem unwrap_idempotent_and_full (d : DBV) :
    Unwrap (Unwrap d) = Unwrap d ∧ hasUnwrapMethod (Unwrap d) = false := by
  induction d with
  | conn i => exact ⟨rfl, rfl⟩
  | txv i => exact ⟨rfl, rfl⟩
  | wrapper inner ih => exact ih

/-- Claim C10: every top-level entry point (`Prepare`, `Exec`,
`Query`, `Begin`, `TX`) panics with the `MustGetDB` message when the
context carries no DB handle, while `GetDB` on the same context
returns `false` without panicking. -/
theorem entry_points_panic_without_db (ctx : Ctx) (q : String) (ps : List Param)
    (w : World) (p : Prog) (h : ctx.db = none) :
    (GetDB ctx).2 = false ∧
    Prepare ctx q ps = .panicked noDBPanicMsg ∧
    Exec ctx w q = .panicked noDBPanicMsg ∧
    Query ctx q ps = .panicked noDBPanicMsg ∧
    Begin ctx w = .panicked noDBPanicMsg ∧
    TX ctx p w = .panicked noDBPanicMsg := by
  obtain ⟨db⟩ := ctx
  simp only [Ctx.mk.injEq] at h
  subst h
  exact ⟨rfl, rfl, rfl, rfl, rfl, rfl⟩

/-- Witness for C10 at a concrete context carrying no DB. -/
theorem entry_points_panic_without_db_witness :
    (GetDB ⟨none⟩).2 = false ∧
    Prepare ⟨none⟩ "select 1" [] = .panicked noDBPanicMsg ∧
    Exec ⟨none⟩ ⟨[], none, 0, 0, 0⟩ "select 1" = .panicked noDBPanicMsg ∧
    Query ⟨none⟩ "select 1" [] = .panicked noDBPanicMsg ∧
    Begin ⟨none⟩ ⟨[], none, 0, 0, 0⟩ = .panicked noDBPanicMsg ∧
    TX ⟨none⟩ (Prog.exec "insert") ⟨[], none, 0, 0, 0⟩ = .panicked noDBPanicMsg :=
  entry_points_panic_without_db ⟨none⟩ "select 1" [] ⟨[], none, 0, 0, 0⟩
    (Prog.exec "insert") rfl

/-- Claim C2: a second `Begin` on the context returned by a first
successful `Begin` opens no new native transaction: it returns the
identical context, the identical handle and the unchanged world,
together with the `ErrTransactionStarted` signal, which is a sentinel
value distinct from every other error. -/
theorem begin_nested_returns_same (ctx0 ctx1 : Ctx) (w0 w1 : World) (h1 : Handle)
    (h : Begin ctx0 w0 = .ok (ctx1, h1, none, w1)) :
    Begin ctx1 w1 = .ok (ctx1, h1, some Err.errTransactionStarted, w1) ∧
    (∀ m : String, Err.errTransactionStarted ≠ Err.oops m) := by
  constructor
  · cases hdb : ctx0.db with
    | none => simp [Begin, MustGetDB, hdb] at h
    | some db =>
        simp only [Begin, MustGetDB, hdb, Outcome.ok.injEq] at h
        cases db with
        | tx i => simp [beginImpl] at h
        | base =>
            simp only [beginImpl, Prod.mk.injEq] at h
            obtain ⟨hc, hh, _, hw⟩ := h
            subst hc hh hw
            rfl
  · intro m hne
    cases hne

/-- Witness for C2: a concrete first `Begin` from an idle context
followed by the nested one. -/
theorem begin_nested_returns_same_witness :
    Begin ⟨some (Handle.tx 0)⟩ ⟨[], some (0, []), 1, 0, 0⟩ =
      .ok (⟨some (Handle.tx 0)⟩, Handle.tx 0, some Err.errTransactionStarted,
           ⟨[], some (0, []), 1, 0, 0⟩) ∧
    (∀ m : String, Err.errTransactionStarted ≠ Err.oops m) :=
  begin_nested_returns_same ⟨some Handle.base⟩ ⟨some (Handle.tx 0)⟩
    ⟨[], none, 0, 0, 0⟩ ⟨[], some (0, []), 1, 0, 0⟩ (Handle.tx 0) rfl

/-- Claim C8: a template with no placeholders of any kind and no
conditional blocks, prepared with no parameters, comes back unchanged
with an empty argument list and no error. -/
theorem prepare_no_params_identity (q : String)
    (h1 : hasQuestion q.data = false)
    (h2 : hasNamedPlaceholder q.data = false)
    (h3 : hasDollarPlaceholder q.data = false)
    (h4 : noOpen q.data = true) :
    prepareImpl q [] = .ok (q, []) := rfl

/-- Witness for C8 at the parameter-free template of `TestPrepare`. -/
theorem prepare_no_params_identity_witness :
    prepareImpl "select foo from bar" [] = .ok ("select foo from bar", []) :=
  prepare_no_params_identity "select foo from bar" (by decide) (by decide)
    (by decide) (by decide)

/-- Claim C7: supplying at least one named source (map or record, of
either kind) together with at least one bare positional value always
fails with the "cannot mix named and positional parameters"
condition. -/
theorem prepare_mix_named_positional (q : String) (ps : List Param)
    (pn : Param) (v : Val)
    (hmem : pn ∈ ps) (hnamed : isNamedSource pn = true)
    (hpos : Param.pos v ∈ ps) :
    prepareImpl q ps = .error PrepErr.mixNamedPositional ∧
    (PrepErr.mixNamedPositional).message = "cannot mix named and positional parameters" := by
  constructor
  · have hany : ps.any isNamedSource = true := List.any_eq_true.mpr ⟨pn, hmem, hnamed⟩
    have hfm : v ∈ ps.filterMap getPos := by
      apply List.mem_filterMap.mpr
      exact ⟨Param.pos v, hpos, rfl⟩
    have hne : (ps.filterMap getPos).isEmpty = false := by
      cases hl : ps.filterMap getPos with
      | nil => rw [hl] at hfm; cases hfm
      | cons a t => rfl
    rw [prepareImpl, extractParams, if_pos hany, hne]
    simp
  · rfl

theorem addPairs_overlap (kvs : List (String × Val)) :
    ∀ acc : List (String × Val), (kvs.map Prod.fst).Nodup →
      (∃ k, k ∈ kvs.map Prod.fst ∧ k ∈ acc.map Prod.fst) →
      ∃ k2, k2 ∈ kvs.map Prod.fst ∧ k2 ∈ acc.map Prod.fst ∧
        addPairs kvs acc = .error (.moreThanOnce k2) := by
  induction kvs with
  | nil =>
      intro acc _ hov
      obtain ⟨k, hk, _⟩ := hov
      simp at hk
  | cons kv rest ih =>
      intro acc hnd hov
      obtain ⟨k0, v0⟩ := kv
      by_cases hin : acc.any (fun p => p.1 = k0) = true
      · obtain ⟨p, hp, hpk⟩ := List.any_eq_true.mp hin
        refine ⟨k0, by simp, ?_, ?_⟩
        · exact List.mem_map.mpr ⟨p, hp, of_decide_eq_true hpk⟩
        · rw [addPairs, hin]
          simp
      · obtain ⟨k, hk1, hk2⟩ := hov
        have hkne : k ≠ k0 := by
          intro he
          subst he
          obtain ⟨p, hp, hpk⟩ := List.mem_map.mp hk2
          exact hin (List.any_eq_true.mpr ⟨p, hp, decide_eq_true hpk⟩)
        have hkrest : k ∈ rest.map Prod.fst := by
          simp only [List.map_cons, List.mem_cons] at hk1
          exact hk1.resolve_left hkne
        have hndr : (rest.map Prod.fst).Nodup := by
          simp only [List.map_cons, List.nodup_cons] at hnd
          exact hnd.2
        have hk0nr : k0 ∉ rest.map Prod.fst := by
          simp only [List.map_cons, List.nodup_cons] at hnd
          exact hnd.1
        obtain ⟨k2, hr1, hr2, hr3⟩ := ih (acc ++ [(k0, v0)]) hndr
          ⟨k, hkrest, by simp [List.mem_map.mp hk2]⟩
        have hk2ne : k2 ≠ k0 := by
          intro he
          subst he
          exact hk0nr hr1
        have hk2acc : k2 ∈ acc.map Prod.fst := by
          rw [List.map_append] at hr2
          rcases List.mem_append.mp hr2 with hl | hrr
          · exact hl
          · simp only [List.map_cons, List.map_nil, List.mem_singleton] at hrr
            exact absurd hrr hk2ne
        refine ⟨k2, by simp [hr1], hk2acc, ?_⟩
        rw [addPairs]
        rw [Bool.not_eq_true] at hin
        rw [hin]
        simp only [Bool.false_eq_true, if_false]
        exact hr3

/-- Claim C6: when two named sources (maps or records, in any
combination) supply the same key, `prepare` fails with the
"parameter given more than once" condition naming an offending key
shared by both sources — it never silently overwrites one value with
the other. -/
theorem prepare_duplicate_key (q : String) (b1 b2 : Bool)
    (kvs1 kvs2 : List (String × Val)) (k : String)
    (hnd1 : (kvs1.map Prod.fst).Nodup) (hnd2 : (kvs2.map Prod.fst).Nodup)
    (h1 : k ∈ kvs1.map Prod.fst) (h2 : k ∈ kvs2.map Prod.fst) :
    ∃ k2, k2 ∈ kvs1.map Prod.fst ∧ k2 ∈ kvs2.map Prod.fst ∧
      prepareImpl q [mkNamed b1 kvs1, mkNamed b2 kvs2] = .error (.moreThanOnce k2) ∧
      (PrepErr.moreThanOnce k2).message = "parameter given more than once: " ++ k2 := by
  have hfirst : addPairs kvs1 [] = .ok kvs1 := by
    have := addPairs_ok kvs1 [] hnd1 (by intro p hp; cases hp)
    simpa using this
  obtain ⟨k2, ho1, ho2, ho3⟩ := addPairs_overlap kvs2 kvs1 hnd2 ⟨k, h2, h1⟩
  refine ⟨k2, ho2, ho1, ?_, rfl⟩
  have hany : ([mkNamed b1 kvs1, mkNamed b2 kvs2].any isNamedSource) = true := by
    simp [mkNamed_isNamedSource]
  have hfm : ([mkNamed b1 kvs1, mkNamed b2 kvs2].filterMap getPos).isEmpty = true := by
    simp [List.filterMap, mkNamed_getPos]
  rw [prepareImpl, extractParams, if_pos hany, hfm]
  simp only [if_true]
  rw [mergeNamed, mkNamed_namedPairs, hfirst]
  simp only
  rw [mergeNamed, mkNamed_namedPairs, ho3]

/-- Witness for C6: the duplicate-key call of `TestPrepare`, with one
map source and one record source. -/
theorem prepare_duplicate_key_witness :
    ∃ k2, k2 ∈ ([("x", Val.vint 1)].map Prod.fst) ∧
      k2 ∈ ([("x", Val.vint 2)].map Prod.fst) ∧
      prepareImpl "select :x" [mkNamed true [("x", Val.vint 1)], mkNamed false [("x", Val.vint 2)]]
        = .error (.moreThanOnce k2) ∧
      (PrepErr.moreThanOnce k2).message = "parameter given more than once: " ++ k2 :=
  prepare_duplicate_key "select :x" true false [("x", Val.vint 1)] [("x", Val.vint 2)] "x"
    (by simp) (by simp) (by simp) (by simp)

/-- Witness for C7 at the mixed call of `TestPrepare`. -/
theorem prepare_mix_named_positional_witness :
    prepareImpl "select :x" [Param.map [("x", Val.vint 1)], Param.pos (Val.vint 42)]
      = .error PrepErr.mixNamedPositional ∧
    (PrepErr.mixNamedPositional).message = "cannot mix named and positional parameters" :=
  prepare_mix_named_positional "select :x"
    [Param.map [("x", Val.vint 1)], Param.pos (Val.vint 42)]
    (Param.map [("x", Val.vint 1)]) (Val.vint 42)
    (by simp) rfl (by simp)

end Zdb
